import Mathlib

/-!
Shallow embedding of the session-reconstruction parser (`parser.go`) of
`claude-share`: the history index (`ParseHistory`) and the session
reconstructor (`ParseSession`) together with its content-block extraction
helpers (`parseUserRow`, `extractAssistantBlocks`, `extractToolResultContent`).

JSON decoding is modelled at the decoded-value level: each line of a log is
represented by what `json.Unmarshal` would produce for it.  Go's decoder
treats a JSON `null` as "leave the zero value, no error", so a `null` content
decodes exactly like the empty string / empty payload and is represented that
way.  A `json.RawMessage` that is `nil` (field absent) is modelled as an
explicit `absent`/`none` constructor, since the code distinguishes it.
File I/O is abstracted by `FileInput`: a file either fails to open, fails
mid-scan with some prefix of lines already delivered, or delivers its full
list of lines.
-/

/-- Go struct `ContentBlock` (parser.go).  The Go field `Type` is named `kind`
here because `Type` is a Lean keyword; all other fields keep their names. -/
structure ContentBlock where
  kind      : String
  Text      : String := ""
  ToolName  : String := ""
  ToolInput : String := ""
  ToolUseID : String := ""
  IsError   : Bool := false
deriving DecidableEq, Repr

/-- Go struct `Message` (parser.go). -/
structure Message where
  Role      : String
  Blocks    : List ContentBlock
  Timestamp : String
deriving DecidableEq, Repr

/-- Go struct `SessionSummary` (parser.go).  `Timestamp` is the Go `int64`
Unix-milliseconds value, modelled as `Int` (only compared, never computed
with, so overflow is irrelevant). -/
structure SessionSummary where
  ID          : String
  Project     : String
  FirstPrompt : String
  Timestamp   : Int
deriving DecidableEq, Repr

/-- Go struct `ParseOpts` (parser.go). -/
structure ParseOpts where
  IncludeTools    : Bool
  IncludeThinking : Bool
deriving DecidableEq, Repr

/-- Go struct `historyEntry` (parser.go): the decoded shape of one
well-formed line of `history.jsonl`. -/
structure historyEntry where
  Display   : String
  Timestamp : Int
  Project   : String
  SessionID : String
deriving DecidableEq, Repr

/-- One physical line of the history log: either it fails to decode as
`historyEntry` (skipped by the scanner) or it decodes to an entry. -/
inductive HistoryLine where
  | malformed
  | entry (e : historyEntry)
deriving DecidableEq, Repr

/-- Decoded element of the anonymous `[]struct{ Type, Text string }` that
`extractToolResultContent` probes for.  The Go field `Type` is named `kind`. -/
structure TextItem where
  kind : String
  Text : String
deriving DecidableEq, Repr

/-- The decoded shape of a `tool_result` item's raw `content`
(`json.RawMessage`), as seen by `extractToolResultContent`:
`absent` = the field was missing (`nil` RawMessage); `str` = decodes as a
JSON string (a JSON `null` decodes as `str ""`); `arr` = decodes as an array
of `{type,text}` objects; `other` = present but neither shape, carrying the
raw JSON text. -/
inductive ToolResultRaw where
  | absent
  | str (s : String)
  | arr (items : List TextItem)
  | other (raw : String)
deriving DecidableEq, Repr

/-- Go struct `contentBlockRaw` (parser.go): one decoded typed content item.
The Go field `Type` is named `kind`.  `Input` is `none` when the
`json.RawMessage` was `nil` (field absent), otherwise `some` of its raw JSON
text.  `Content` is the nested `tool_result` payload. -/
structure contentBlockRaw where
  kind      : String
  Text      : String := ""
  Thinking  : String := ""
  ID        : String := ""
  Name      : String := ""
  Input     : Option String := none
  ToolUseID : String := ""
  Content   : ToolResultRaw := .absent
  IsError   : Bool := false
deriving DecidableEq, Repr

/-- The decoded shape of a message's `content` (`json.RawMessage`), as probed
by `parseUserRow` (string first, then typed array) and
`extractAssistantBlocks` (typed array only): `absent` = field missing
(`nil` RawMessage, every decode errors); `str` = decodes as a JSON string
(JSON `null` decodes as `str ""`, since Go leaves the zero value with no
error for `null` in both the string and the slice probe, and the string
probe is tried first); `items` = decodes as an array of typed items;
`other` = present but neither shape. -/
inductive JsonContent where
  | absent
  | str (s : String)
  | items (blocks : List contentBlockRaw)
  | other (raw : String)
deriving DecidableEq, Repr

/-- Go struct `apiMessage` (parser.go).  The unused `StopReason` field is
omitted. -/
structure apiMessage where
  ID      : String
  Role    : String := ""
  Content : JsonContent := .absent
deriving DecidableEq, Repr

/-- The decoded shape of a session row's nested `message` payload:
`absent` = `row.Message == nil` (field missing); `malformed` = present but
`json.Unmarshal` into `apiMessage` fails; `ok` = decoded payload. -/
inductive MsgPayload where
  | absent
  | malformed
  | ok (m : apiMessage)
deriving DecidableEq, Repr

/-- Go struct `sessionRow` (parser.go): the decoded envelope of one line of a
session log.  The Go field `Type` is named `kind`.  The unused fields
`UUID`, `SessionID`, `Content`, `Subtype` are omitted. -/
structure sessionRow where
  kind      : String
  Timestamp : String := ""
  IsMeta    : Bool := false
  Message   : MsgPayload := .absent
deriving DecidableEq, Repr

/-- One physical line of a session log: either the envelope decode fails
(the line is skipped, the sequence counter still advances) or it decodes to
a `sessionRow`. -/
inductive SessionLine where
  | malformed
  | row (r : sessionRow)
deriving DecidableEq, Repr

/-- Abstraction of reading a line-delimited file: the open can fail, the
scan can fail mid-way (after delivering some prefix of lines), or the whole
list of lines is delivered. -/
inductive FileInput (α : Type) where
  | openError
  | readError (delivered : List α)
  | ok (lines : List α)
deriving DecidableEq, Repr

/-- Error cause of a failed call, distinguishing "could not open source"
(Go: the wrapped `os.Open` error) from "could not read source"
(Go: the `scanner.Err()` error). -/
inductive ParseErr where
  | openFail
  | scanFail
deriving DecidableEq, Repr

/-- `leadsWith p l` decides whether `p` is an initial segment of `l`
(character-level model of byte-level prefix matching in `strings.Contains`;
the marker patterns are ASCII so the two coincide). -/
def leadsWith : List Char → List Char → Bool
  | [], _ => true
  | _ :: _, [] => false
  | p :: ps, c :: cs => p == c && leadsWith ps cs

/-- `charsContain pat l` decides whether `pat` occurs as a contiguous run
inside `l`. -/
def charsContain (pat : List Char) : List Char → Bool
  | [] => leadsWith pat []
  | c :: cs => leadsWith pat (c :: cs) || charsContain pat cs

/-- Model of Go `strings.Contains s pat`. -/
def strContains (s pat : String) : Bool :=
  charsContain pat.toList s.toList

/-- The three-marker substring test applied by `parseUserRow` to bare-string
user content and to user `text` items (parser.go lines 253 and 279). -/
def isSyntheticMarker (s : String) : Bool :=
  strContains s "<command-name>" || strContains s "<local-command" ||
    strContains s "<system-reminder>"

/-- Go `extractToolResultContent` (parser.go:335-357): string content is
returned verbatim; array content joins, with `"\n"`, the `Text` field of
every item whose `Text` is non-empty (the item's `Type` is not consulted);
absent content gives `""`; any other present shape is returned as its raw
JSON text. -/
def extractToolResultContent : ToolResultRaw → String
  | .absent => ""
  | .str s => s
  | .arr items =>
      String.intercalate "\n" ((items.filter (fun a => a.Text ≠ "")).map (·.Text))
  | .other raw => raw

/-- The `for _, b := range blocks` loop of `parseUserRow`
(parser.go:265-284): `tool_result` items are kept only under `IncludeTools`
(with text resolved by `extractToolResultContent`); `text` items are dropped
when they contain a marker substring and otherwise kept verbatim (no
emptiness check); every other kind is ignored. -/
def userBlocks (opts : ParseOpts) : List contentBlockRaw → List ContentBlock
  | [] => []
  | b :: bs =>
      let rest := userBlocks opts bs
      if b.kind = "tool_result" then
        if opts.IncludeTools then
          { kind := "tool_result", Text := extractToolResultContent b.Content,
            ToolUseID := b.ToolUseID, IsError := b.IsError } :: rest
        else rest
      else if b.kind = "text" then
        if isSyntheticMarker b.Text then rest
        else { kind := "text", Text := b.Text } :: rest
      else rest

/-- Go `parseUserRow` (parser.go:239-290). -/
def parseUserRow (row : sessionRow) (opts : ParseOpts) : Option Message :=
  if row.IsMeta then none else
  match row.Message with
  | .absent => none
  | .malformed => none
  | .ok api =>
    match api.Content with
    | .str rawStr =>
        if isSyntheticMarker rawStr then none
        else some { Role := "user", Blocks := [{ kind := "text", Text := rawStr }],
                    Timestamp := row.Timestamp }
    | .items blocks =>
        let bs := userBlocks opts blocks
        if bs.isEmpty then none
        else some { Role := "user", Blocks := bs, Timestamp := row.Timestamp }
    | .absent => none
    | .other _ => none

/-- The `for _, b := range blocks` loop of `extractAssistantBlocks`
(parser.go:299-331): non-empty `text` items become text blocks; `thinking`
items are kept only under `IncludeThinking`, with the `Thinking` field
falling back to `Text` when empty and the block materialized only when the
resolved text is non-empty; `tool_use` items are kept only under
`IncludeTools`, with input defaulting to the raw text of `Input` or `"{}"`
when absent; every other kind is ignored. -/
def assistantLoop (opts : ParseOpts) : List contentBlockRaw → List ContentBlock
  | [] => []
  | b :: bs =>
      let rest := assistantLoop opts bs
      if b.kind = "text" then
        if b.Text ≠ "" then { kind := "text", Text := b.Text } :: rest else rest
      else if b.kind = "thinking" then
        if !opts.IncludeThinking then rest
        else
          let text := if b.Thinking = "" then b.Text else b.Thinking
          if text ≠ "" then { kind := "thinking", Text := text } :: rest else rest
      else if b.kind = "tool_use" then
        if !opts.IncludeTools then rest
        else
          let inputStr := match b.Input with
            | none => "\x7b\x7d"
            | some s => s
          { kind := "tool_use", ToolName := b.Name, ToolInput := inputStr,
            ToolUseID := b.ID } :: rest
      else rest

/-- Go `extractAssistantBlocks` (parser.go:292-333): content that does not
decode as a typed-item array yields no blocks. -/
def extractAssistantBlocks (raw : JsonContent) (opts : ParseOpts) : List ContentBlock :=
  match raw with
  | .items blocks => assistantLoop opts blocks
  | _ => []

/-- Construction of a `SessionSummary` from a history entry
(parser.go:99-104). -/
def mkSummary (e : historyEntry) : SessionSummary :=
  { ID := e.SessionID, Project := e.Project, FirstPrompt := e.Display,
    Timestamp := e.Timestamp }

/-- The scan loop of `ParseHistory` (parser.go:90-107).  The Go
`seen` map plus `order` slice is modelled as one list in first-seen order:
a line whose identifier is empty or already present is skipped, otherwise
its summary is appended. -/
def historyScan : List HistoryLine → List SessionSummary → List SessionSummary
  | [], acc => acc
  | .malformed :: ls, acc => historyScan ls acc
  | .entry e :: ls, acc =>
      if e.SessionID = "" then historyScan ls acc
      else if acc.any (fun s => s.ID == e.SessionID) then historyScan ls acc
      else historyScan ls (acc ++ [mkSummary e])

/-- The sort relation of `ParseHistory` (parser.go:116-118): Go sorts with
`less i j := results[i].Timestamp > results[j].Timestamp`, i.e. into
non-increasing timestamp order. -/
def histGE (a b : SessionSummary) : Prop := b.Timestamp ≤ a.Timestamp

instance : DecidableRel histGE := fun a b =>
  inferInstanceAs (Decidable (b.Timestamp ≤ a.Timestamp))

instance : IsTotal SessionSummary histGE := ⟨fun a b => (le_total b.Timestamp a.Timestamp)⟩

instance : IsTrans SessionSummary histGE :=
  ⟨fun _ _ _ h₁ h₂ => le_trans h₂ h₁⟩

/-- Pure core of Go `ParseHistory` (parser.go:85-119): scan all lines,
first-seen-wins per identifier, then sort by timestamp descending.  Go's
`sort.Slice` is an arbitrary comparison sort for the given `less`; it is
modelled by insertion sort for `histGE`, a sort for the same order. -/
def parseHistoryLines (lines : List HistoryLine) : List SessionSummary :=
  List.insertionSort histGE (historyScan lines [])

/-- Go `ParseHistory` (parser.go:77-120) over an abstract file: an open
failure and a scan failure each abort with an error and no result (lines
delivered before a scan failure are discarded, as in the Go code where the
`scanner.Err()` check returns `nil, err` after the loop). -/
def ParseHistory (input : FileInput HistoryLine) : Except ParseErr (List SessionSummary) :=
  match input with
  | .openError => .error .openFail
  | .readError _ => .error .scanFail
  | .ok lines => .ok (parseHistoryLines lines)

/-- The local `userEntry` struct of `ParseSession` (parser.go:148-151). -/
structure userEntry where
  msg : Message
  seq : Nat
deriving DecidableEq, Repr

/-- The local `assistantGroup` struct of `ParseSession` (parser.go:152-156). -/
structure assistantGroup where
  blocks   : List ContentBlock
  ts       : String
  firstSeq : Nat
deriving DecidableEq, Repr

/-- The mutable scan state of `ParseSession`: the `userMsgs` slice, the
`assistantGroups` map together with the `assistantIDs` insertion-order slice
(modelled as one association list in first-seen order), and the `seq`
counter. -/
structure scanState where
  userMsgs : List userEntry
  groups   : List (String × assistantGroup)
  seq      : Nat
deriving DecidableEq, Repr

/-- The group update of the `assistant` case (parser.go:199-205): if a group
for `id` exists its blocks are extended (timestamp and first sequence number
are kept), otherwise a new group carrying this line's timestamp and sequence
number is appended at the end of the first-seen order. -/
def addToGroup (gs : List (String × assistantGroup)) (id : String)
    (blocks : List ContentBlock) (ts : String) (seq : Nat) :
    List (String × assistantGroup) :=
  match gs with
  | [] => [(id, { blocks := blocks, ts := ts, firstSeq := seq })]
  | (k, g) :: rest =>
      if k = id then (k, { g with blocks := g.blocks ++ blocks }) :: rest
      else (k, g) :: addToGroup rest id blocks ts seq

/-- One iteration of the scan loop of `ParseSession` (parser.go:166-208).
Every branch advances `seq` by one, including all skipping branches. -/
def stepLine (opts : ParseOpts) (st : scanState) (l : SessionLine) : scanState :=
  match l with
  | .malformed => { st with seq := st.seq + 1 }
  | .row row =>
      if row.kind = "user" then
        if row.IsMeta then { st with seq := st.seq + 1 }
        else
          match parseUserRow row opts with
          | some m =>
              { st with userMsgs := st.userMsgs ++ [{ msg := m, seq := st.seq }],
                        seq := st.seq + 1 }
          | none => { st with seq := st.seq + 1 }
      else if row.kind = "assistant" then
        match row.Message with
        | .absent => { st with seq := st.seq + 1 }
        | .malformed => { st with seq := st.seq + 1 }
        | .ok api =>
            let blocks := extractAssistantBlocks api.Content opts
            if blocks.isEmpty then { st with seq := st.seq + 1 }
            else
              { st with groups := addToGroup st.groups api.ID blocks row.Timestamp st.seq,
                        seq := st.seq + 1 }
      else { st with seq := st.seq + 1 }

/-- The whole scan loop of `ParseSession`, from the initial empty state. -/
def sessionScan (opts : ParseOpts) (lines : List SessionLine) : scanState :=
  lines.foldl (stepLine opts) { userMsgs := [], groups := [], seq := 0 }

/-- The local `seqMsg` struct of `ParseSession` (parser.go:213-216). -/
structure seqMsg where
  msg : Message
  seq : Nat
deriving DecidableEq, Repr

/-- The merge sort relation of `ParseSession` (parser.go:230): Go sorts with
`less i j := all[i].seq < all[j].seq`; all sequence numbers in `all` are
distinct, so any sort for that order yields the same list; modelled by
insertion sort for `≤` on `seq`. -/
def seqLE (a b : seqMsg) : Prop := a.seq ≤ b.seq

instance : DecidableRel seqLE := fun a b =>
  inferInstanceAs (Decidable (a.seq ≤ b.seq))

instance : IsTotal seqMsg seqLE := ⟨fun a b => le_total a.seq b.seq⟩

instance : IsTrans seqMsg seqLE := ⟨fun _ _ _ h₁ h₂ => le_trans h₁ h₂⟩

/-- Pure core of Go `ParseSession` (parser.go:162-236): scan, collect user
entries and non-empty assistant groups (in first-seen identifier order) into
`all`, sort by sequence number, and project the messages. -/
def parseSessionLines (lines : List SessionLine) (opts : ParseOpts) : List Message :=
  let st := sessionScan opts lines
  let all := st.userMsgs.map (fun u => seqMsg.mk u.msg u.seq) ++
    st.groups.filterMap (fun g =>
      if (g.2.blocks).isEmpty then none
      else some (seqMsg.mk { Role := "assistant", Blocks := g.2.blocks,
                             Timestamp := g.2.ts } g.2.firstSeq))
  (List.insertionSort seqLE all).map (·.msg)

/-- Go `ParseSession` (parser.go:141-237) over an abstract file, with the
same error behaviour as `ParseHistory`. -/
def ParseSession (input : FileInput SessionLine) (opts : ParseOpts) :
    Except ParseErr (List Message) :=
  match input with
  | .openError => .error .openFail
  | .readError _ => .error .scanFail
  | .ok lines => .ok (parseSessionLines lines opts)

/-! ## Specification-side definitions

The following definitions are written from the spec's words (not from the
source) and are compared with the source-side definitions above in the
refinement theorems below. -/

/-- Spec-side (C2, as claimed): tool-result array content concatenates the
`text` field of every item **whose kind is `text`**, joined with newline
separators; non-text items and empty text fields contribute nothing; the
other shapes are as for the source. -/
def specExtractToolResultContent : ToolResultRaw → String
  | .absent => ""
  | .str s => s
  | .arr items =>
      String.intercalate "\n"
        ((items.filter (fun a => a.kind = "text" ∧ a.Text ≠ "")).map (·.Text))
  | .other raw => raw

/-- Spec-side (C2, amended): as claimed, except that in the array shape the
`text` field of **every** item with a non-empty text field contributes,
regardless of the item's kind. -/
def amendedExtractToolResultContent : ToolResultRaw → String
  | .absent => ""
  | .str s => s
  | .arr items =>
      String.intercalate "\n" (((items.map (·.Text)).filter (fun t => t ≠ "")))
  | .other raw => raw

/-- Spec-side: the retained user messages, tagged with their sequence
numbers, of the suffix of a session log starting at sequence number `n`:
one entry per non-meta `user` line whose payload yields a message, at the
line's own sequence number; the sequence number advances by one for every
line, including skipped ones. -/
def userEntriesFrom (opts : ParseOpts) (n : Nat) : List SessionLine → List userEntry
  | [] => []
  | l :: ls =>
      let rest := userEntriesFrom opts (n + 1) ls
      match l with
      | .row row =>
          if row.kind = "user" ∧ row.IsMeta = false then
            match parseUserRow row opts with
            | some m => { msg := m, seq := n } :: rest
            | none => rest
          else rest
      | .malformed => rest

/-- Spec-side: one contributing assistant line — its sequence number, its
message identifier, the (non-empty) blocks extracted from it, and its
timestamp. -/
structure contrib where
  seq    : Nat
  id     : String
  blocks : List ContentBlock
  ts     : String
deriving DecidableEq, Repr

/-- Spec-side: the contributing assistant lines of the suffix of a session
log starting at sequence number `n`, in file order: an `assistant` line with
a well-formed payload whose content yields at least one block under the
given options; the sequence number advances by one for every line. -/
def contribsFrom (opts : ParseOpts) (n : Nat) : List SessionLine → List contrib
  | [] => []
  | l :: ls =>
      let rest := contribsFrom opts (n + 1) ls
      match l with
      | .row row =>
          if row.kind = "assistant" then
            match row.Message with
            | .ok api =>
                let bs := extractAssistantBlocks api.Content opts
                if bs.isEmpty then rest
                else { seq := n, id := api.ID, blocks := bs, ts := row.Timestamp } :: rest
            | _ => rest
          else rest
      | .malformed => rest

/-- Spec-side: first occurrences, in order, of a list of identifiers. -/
def dedupKeepFirst : List String → List String
  | [] => []
  | x :: xs => x :: (dedupKeepFirst xs).filter (fun y => y ≠ x)

/-- Spec-side (C3): the single output assistant message of one identifier
group — its blocks are the concatenation, in file order, of the blocks of
every contributing line with that identifier, its timestamp and position are
those of the identifier's first contributing line; an identifier with no
contributing line yields nothing. -/
def specGroupMsg (cs : List contrib) (id : String) : Option seqMsg :=
  match cs.filter (fun c => c.id = id) with
  | [] => none
  | c :: rest =>
      some { msg := { Role := "assistant",
                      Blocks := ((c :: rest).map (·.blocks)).flatten,
                      Timestamp := c.ts },
             seq := c.seq }

/-- Spec-side (C10): the accumulated group of one identifier — blocks
concatenated in file order over the contributing lines, timestamp and first
sequence number taken from the identifier's **first contributing** line. -/
def specGroupOf (cs : List contrib) (id : String) : Option assistantGroup :=
  match cs.filter (fun c => c.id = id) with
  | [] => none
  | c :: rest =>
      some { blocks := ((c :: rest).map (·.blocks)).flatten, ts := c.ts,
             firstSeq := c.seq }

/-- Spec-side (C3): the reconstruction described by the spec — the merge of
the retained user messages and the per-identifier assistant messages (one
per distinct contributing identifier, in first-seen order), sorted ascending
by sequence number. -/
def reconstructSpec (lines : List SessionLine) (opts : ParseOpts) : List Message :=
  let us := userEntriesFrom opts 0 lines
  let cs := contribsFrom opts 0 lines
  let asg := (dedupKeepFirst (cs.map (·.id))).filterMap (specGroupMsg cs)
  (List.insertionSort seqLE (us.map (fun u => seqMsg.mk u.msg u.seq) ++ asg)).map (·.msg)

/-- Spec-side (C7): the first well-formed history line carrying the given
identifier, in file order. -/
def firstEntryWith (lines : List HistoryLine) (id : String) : Option historyEntry :=
  lines.findSome? fun l =>
    match l with
    | .entry e => if e.SessionID = id then some e else none
    | .malformed => none

/-- Association-list lookup on the scan state's groups (the Go
`assistantGroups[id]` map access). -/
def lookupGroup (gs : List (String × assistantGroup)) (id : String) :
    Option assistantGroup :=
  match gs with
  | [] => none
  | (k, g) :: rest => if k = id then some g else lookupGroup rest id

/-- Folding a list of contributions into the assistant-group association
list, one `addToGroup` per contribution (the accumulation performed by the
`assistant` case of the scan loop, abstracted from the line traversal). -/
def insertContribs (gs : List (String × assistantGroup)) (cs : List contrib) :
    List (String × assistantGroup) :=
  cs.foldl (fun gs c => addToGroup gs c.id c.blocks c.ts c.seq) gs

/-- The group built from a list of contributions sharing one identifier:
blocks concatenated in order, timestamp and sequence number of the first
(junk value for the empty list, which never arises below). -/
def grpOf (l : List contrib) : assistantGroup :=
  match l with
  | [] => { blocks := [], ts := "", firstSeq := 0 }
  | c :: rest =>
      { blocks := ((c :: rest).map (·.blocks)).flatten, ts := c.ts,
        firstSeq := c.seq }

/-- Closed form of the assistant-group association list after a scan over
contributions `cs`: one entry per distinct identifier in first-seen order,
each holding the group of that identifier's contributions. -/
def specGroups (cs : List contrib) : List (String × assistantGroup) :=
  (dedupKeepFirst (cs.map (·.id))).map fun id =>
    (id, grpOf (cs.filter (fun c => c.id = id)))

/-- Helper for the history-scan characterization: the summaries the scan
appends for identifiers not among `seen`, in file order, first occurrence
winning. -/
def newOnes : List HistoryLine → List String → List SessionSummary
  | [], _ => []
  | .malformed :: ls, seen => newOnes ls seen
  | .entry e :: ls, seen =>
      if e.SessionID = "" then newOnes ls seen
      else if e.SessionID ∈ seen then newOnes ls seen
      else mkSummary e :: newOnes ls (seen ++ [e.SessionID])

/-! ## Lemmas -/

theorem mem_dedupKeepFirst {a : String} : ∀ {xs : List String},
    a ∈ dedupKeepFirst xs ↔ a ∈ xs
  | [] => Iff.rfl
  | x :: xs => by
      by_cases hax : a = x
      · subst hax
        simp [dedupKeepFirst]
      · simp only [dedupKeepFirst, List.mem_cons, List.mem_filter,
          decide_eq_true_eq, hax, false_or]
        rw [@mem_dedupKeepFirst a xs]
        simp [hax]

theorem nodup_dedupKeepFirst : ∀ (xs : List String), (dedupKeepFirst xs).Nodup
  | [] => List.nodup_nil
  | x :: xs => by
      simp only [dedupKeepFirst]
      refine List.Nodup.cons ?_ ((nodup_dedupKeepFirst xs).filter _)
      intro hmem
      rcases List.mem_filter.mp hmem with ⟨-, hne⟩
      simp at hne

theorem dedupKeepFirst_append_singleton (xs : List String) (y : String) :
    dedupKeepFirst (xs ++ [y]) =
      if y ∈ xs then dedupKeepFirst xs else dedupKeepFirst xs ++ [y] := by
  induction xs with
  | nil => simp [dedupKeepFirst]
  | cons x xs ih =>
      simp only [List.cons_append, dedupKeepFirst, List.append_eq]
      rw [ih]
      by_cases hyx : y ∈ xs
      · simp [hyx, List.mem_cons]
      · by_cases hxy : y = x
        · subst hxy
          simp [hyx, List.filter_append, dedupKeepFirst]
        · simp [hyx, hxy, List.mem_cons, List.filter_append, dedupKeepFirst,
            Ne.symm]

theorem addToGroup_map_not_mem (ds : List String) (F : String → assistantGroup)
    (tid : String) (bs : List ContentBlock) (ts : String) (sq : Nat)
    (h : tid ∉ ds) :
    addToGroup (ds.map fun id => (id, F id)) tid bs ts sq =
      (ds.map fun id => (id, F id)) ++
        [(tid, { blocks := bs, ts := ts, firstSeq := sq })] := by
  induction ds with
  | nil => simp [addToGroup]
  | cons d ds ih =>
      have hd : d ≠ tid := fun hc => h (hc ▸ List.mem_cons_self d ds)
      have h' : tid ∉ ds := fun hc => h (List.mem_cons_of_mem _ hc)
      simp only [List.map_cons, addToGroup, hd, if_false, ih h', List.cons_append]

theorem addToGroup_map_mem (ds : List String) (F : String → assistantGroup)
    (tid : String) (bs : List ContentBlock) (ts : String) (sq : Nat)
    (hnd : ds.Nodup) (h : tid ∈ ds) :
    addToGroup (ds.map fun id => (id, F id)) tid bs ts sq =
      ds.map fun id =>
        (id, if id = tid then { F id with blocks := (F id).blocks ++ bs }
             else F id) := by
  induction ds with
  | nil => cases h
  | cons d ds ih =>
      rcases List.nodup_cons.mp hnd with ⟨hdnot, hnd'⟩
      by_cases hd : d = tid
      · subst hd
        have hmap :
            List.map (fun id =>
                (id, if id = d then { F id with blocks := (F id).blocks ++ bs }
                     else F id)) ds
              = List.map (fun id => (id, F id)) ds := by
          refine List.map_congr_left ?_
          intro a ha
          have hne : a ≠ d := fun hc => hdnot (hc ▸ ha)
          simp [hne]
        simp [addToGroup, hmap]
      · have h' : tid ∈ ds := by
          rcases List.mem_cons.mp h with h₁ | h₁
          · exact absurd h₁.symm hd
          · exact h₁
        simp only [List.map_cons, addToGroup, hd, if_false, ih hnd' h']

theorem lookupGroup_map (ds : List String) (F : String → assistantGroup)
    (tid : String) (hnd : ds.Nodup) :
    lookupGroup (ds.map fun id => (id, F id)) tid =
      if tid ∈ ds then some (F tid) else none := by
  induction ds with
  | nil => simp [lookupGroup]
  | cons d ds ih =>
      rcases List.nodup_cons.mp hnd with ⟨hdnot, hnd'⟩
      by_cases hd : d = tid
      · subst hd
        simp [lookupGroup, List.mem_cons]
      · simp only [List.map_cons, lookupGroup, hd, if_false, ih hnd']
        by_cases htid : tid ∈ ds
        · simp [htid, List.mem_cons, Ne.symm hd]
        · simp [htid, List.mem_cons, Ne.symm hd]

theorem grpOf_append_singleton (x : contrib) (l : List contrib) (c : contrib) :
    grpOf ((x :: l) ++ [c]) =
      { grpOf (x :: l) with blocks := (grpOf (x :: l)).blocks ++ c.blocks } := by
  simp [grpOf, List.map_append, List.flatten_append]

theorem filter_id_ne_nil (cs : List contrib) (i : String)
    (h : i ∈ cs.map (·.id)) :
    ∃ x l, cs.filter (fun e => e.id = i) = x :: l := by
  obtain ⟨x, hx, hxid⟩ := List.mem_map.mp h
  have hxf : x ∈ cs.filter (fun e => e.id = i) := by
    refine List.mem_filter.mpr ⟨hx, ?_⟩
    simp [hxid]
  exact List.exists_cons_of_ne_nil (List.ne_nil_of_mem hxf)


theorem insertContribs_nil_eq (cs : List contrib) :
    insertContribs [] cs = specGroups cs := by
  induction cs using List.reverseRecOn with
  | nil => simp [insertContribs, specGroups, dedupKeepFirst]
  | append_singleton cs c ih =>
      have hstep : insertContribs [] (cs ++ [c]) =
          addToGroup (insertContribs [] cs) c.id c.blocks c.ts c.seq := by
        simp [insertContribs, List.foldl_append]
      rw [hstep, ih]
      have hnd := nodup_dedupKeepFirst (cs.map (·.id))
      by_cases hmem : c.id ∈ cs.map (·.id)
      · have hds : c.id ∈ dedupKeepFirst (cs.map (·.id)) :=
          mem_dedupKeepFirst.mpr hmem
        rw [specGroups, addToGroup_map_mem _ _ _ _ _ _ hnd hds, specGroups,
          List.map_append]
        simp only [List.map_cons, List.map_nil]
        rw [dedupKeepFirst_append_singleton, if_pos hmem]
        refine List.map_congr_left ?_
        intro a ha
        by_cases hac : a = c.id
        · subst hac
          obtain ⟨x, l, hxl⟩ := filter_id_ne_nil cs c.id hmem
          have hfc : List.filter (fun e => decide (e.id = c.id)) [c] = [c] := by
            simp
          rw [if_pos rfl, List.filter_append, hfc, hxl, grpOf_append_singleton]
        · have hfc : List.filter (fun e => decide (e.id = a)) [c] = [] := by
            have hdec : decide (c.id = a) = false :=
              decide_eq_false (fun h => hac h.symm)
            simp [List.filter, hdec]
          rw [if_neg hac, List.filter_append, hfc, List.append_nil]
      · have hnotds : c.id ∉ dedupKeepFirst (cs.map (·.id)) :=
          fun h => hmem (mem_dedupKeepFirst.mp h)
        rw [specGroups, addToGroup_map_not_mem _ _ _ _ _ _ hnotds, specGroups,
          List.map_append]
        simp only [List.map_cons, List.map_nil]
        rw [dedupKeepFirst_append_singleton, if_neg hmem, List.map_append]
        have hnilf : List.filter (fun e => decide (e.id = c.id)) cs = [] := by
          rw [List.filter_eq_nil_iff]
          intro x hx
          simp only [decide_eq_true_eq]
          exact fun hxc => hmem (List.mem_map.mpr ⟨x, hx, hxc⟩)
      
        refine congrArg₂ (· ++ ·) ?_ ?_
        · refine List.map_congr_left ?_
          intro a ha
          have hane : a ≠ c.id := fun h => hmem (h ▸ mem_dedupKeepFirst.mp ha)
          have hfc : List.filter (fun e => decide (e.id = a)) [c] = [] := by
            have hdec : decide (c.id = a) = false :=
              decide_eq_false (fun h => hane h.symm)
            simp [List.filter, hdec]
          rw [List.filter_append, hfc, List.append_nil]
        · simp only [List.map_cons, List.map_nil, List.filter_append, hnilf]
          simp [grpOf]

theorem insertContribs_cons (gs : List (String × assistantGroup)) (c : contrib)
    (cs : List contrib) :
    insertContribs gs (c :: cs) =
      insertContribs (addToGroup gs c.id c.blocks c.ts c.seq) cs := rfl

theorem foldl_stepLine_eq (opts : ParseOpts) (lines : List SessionLine) :
    ∀ st : scanState,
    lines.foldl (stepLine opts) st =
      { userMsgs := st.userMsgs ++ userEntriesFrom opts st.seq lines,
        groups := insertContribs st.groups (contribsFrom opts st.seq lines),
        seq := st.seq + lines.length } := by
  induction lines with
  | nil =>
      intro st
      simp [userEntriesFrom, contribsFrom, insertContribs]
  | cons l ls ih =>
      intro st
      rw [List.foldl_cons, ih]
      cases l with
      | malformed =>
          have h1 : userEntriesFrom opts st.seq (.malformed :: ls) =
              userEntriesFrom opts (st.seq + 1) ls := by
            simp [userEntriesFrom]
          have h2 : contribsFrom opts st.seq (.malformed :: ls) =
              contribsFrom opts (st.seq + 1) ls := by
            simp [contribsFrom]
          have hstep : stepLine opts st .malformed = { st with seq := st.seq + 1 } := rfl
          rw [hstep, h1, h2]
          simp only [List.length_cons, scanState.mk.injEq]
          refine ⟨by simp, by simp, ?_⟩
          show st.seq + 1 + ls.length = st.seq + (ls.length + 1)
          omega
      | row row =>
          by_cases hu : row.kind = "user"
          · have h2 : contribsFrom opts st.seq (.row row :: ls) =
                contribsFrom opts (st.seq + 1) ls := by
              simp [contribsFrom, hu]
            by_cases hm : row.IsMeta
            · have hstep : stepLine opts st (.row row) =
                  { st with seq := st.seq + 1 } := by
                simp [stepLine, hu, hm]
              have h1 : userEntriesFrom opts st.seq (.row row :: ls) =
                  userEntriesFrom opts (st.seq + 1) ls := by
                simp [userEntriesFrom, hm]
              rw [hstep, h1, h2]
              simp only [List.length_cons, scanState.mk.injEq]
              refine ⟨by simp, by simp, ?_⟩
              show st.seq + 1 + ls.length = st.seq + (ls.length + 1)
              omega
            · have hm' : row.IsMeta = false := by simpa using hm
              cases hpu : parseUserRow row opts with
              | none =>
                  have hstep : stepLine opts st (.row row) =
                      { st with seq := st.seq + 1 } := by
                    simp [stepLine, hu, hm', hpu]
                  have h1 : userEntriesFrom opts st.seq (.row row :: ls) =
                      userEntriesFrom opts (st.seq + 1) ls := by
                    simp [userEntriesFrom, hu, hm', hpu]
                  rw [hstep, h1, h2]
                  simp only [List.length_cons, scanState.mk.injEq]
                  refine ⟨by simp, by simp, ?_⟩
                  show st.seq + 1 + ls.length = st.seq + (ls.length + 1)
                  omega
              | some m =>
                  have hstep : stepLine opts st (.row row) =
                      { st with
                        userMsgs := st.userMsgs ++ [{ msg := m, seq := st.seq }],
                        seq := st.seq + 1 } := by
                    simp [stepLine, hu, hm', hpu]
                  have h1 : userEntriesFrom opts st.seq (.row row :: ls) =
                      { msg := m, seq := st.seq } :: userEntriesFrom opts (st.seq + 1) ls := by
                    simp [userEntriesFrom, hu, hm', hpu]
                  rw [hstep, h1, h2]
                  simp only [List.length_cons, scanState.mk.injEq]
                  refine ⟨by simp, by simp, ?_⟩
                  show st.seq + 1 + ls.length = st.seq + (ls.length + 1)
                  omega
          · have h1 : userEntriesFrom opts st.seq (.row row :: ls) =
                userEntriesFrom opts (st.seq + 1) ls := by
              simp [userEntriesFrom, hu]
            by_cases ha : row.kind = "assistant"
            · cases hmsg : row.Message with
              | absent =>
                  have hstep : stepLine opts st (.row row) =
                      { st with seq := st.seq + 1 } := by
                    simp [stepLine, hu, ha, hmsg]
                  have h2 : contribsFrom opts st.seq (.row row :: ls) =
                      contribsFrom opts (st.seq + 1) ls := by
                    simp [contribsFrom, ha, hmsg]
                  rw [hstep, h1, h2]
                  simp only [List.length_cons, scanState.mk.injEq]
                  refine ⟨by simp, by simp, ?_⟩
                  show st.seq + 1 + ls.length = st.seq + (ls.length + 1)
                  omega
              | malformed =>
                  have hstep : stepLine opts st (.row row) =
                      { st with seq := st.seq + 1 } := by
                    simp [stepLine, hu, ha, hmsg]
                  have h2 : contribsFrom opts st.seq (.row row :: ls) =
                      contribsFrom opts (st.seq + 1) ls := by
                    simp [contribsFrom, ha, hmsg]
                  rw [hstep, h1, h2]
                  simp only [List.length_cons, scanState.mk.injEq]
                  refine ⟨by simp, by simp, ?_⟩
                  show st.seq + 1 + ls.length = st.seq + (ls.length + 1)
                  omega
              | ok api =>
                  by_cases hb : (extractAssistantBlocks api.Content opts).isEmpty
                  · have hstep : stepLine opts st (.row row) =
                        { st with seq := st.seq + 1 } := by
                      simp [stepLine, hu, ha, hmsg, hb]
                    have h2 : contribsFrom opts st.seq (.row row :: ls) =
                        contribsFrom opts (st.seq + 1) ls := by
                      simp [contribsFrom, ha, hmsg, hb]
                    rw [hstep, h1, h2]
                    simp only [List.length_cons, scanState.mk.injEq]
                    refine ⟨by simp, by simp, ?_⟩
                    show st.seq + 1 + ls.length = st.seq + (ls.length + 1)
                    omega
                  · have hb' : (extractAssistantBlocks api.Content opts).isEmpty = false := by
                      simpa using hb
                    have hstep : stepLine opts st (.row row) =
                        { st with
                          groups := addToGroup st.groups api.ID
                            (extractAssistantBlocks api.Content opts)
                            row.Timestamp st.seq,
                          seq := st.seq + 1 } := by
                      simp [stepLine, hu, ha, hmsg, hb']
                    have h2 : contribsFrom opts st.seq (.row row :: ls) =
                        { seq := st.seq, id := api.ID,
                          blocks := extractAssistantBlocks api.Content opts,
                          ts := row.Timestamp } :: contribsFrom opts (st.seq + 1) ls := by
                      simp [contribsFrom, ha, hmsg, hb']
                    rw [hstep, h1, h2, insertContribs_cons]
                    simp only [List.length_cons, scanState.mk.injEq]
                    refine ⟨by simp, by simp, ?_⟩
                    show st.seq + 1 + ls.length = st.seq + (ls.length + 1)
                    omega
            · have hstep : stepLine opts st (.row row) =
                  { st with seq := st.seq + 1 } := by
                simp [stepLine, hu, ha]
              have h2 : contribsFrom opts st.seq (.row row :: ls) =
                  contribsFrom opts (st.seq + 1) ls := by
                simp [contribsFrom, ha]
              rw [hstep, h1, h2]
              simp only [List.length_cons, scanState.mk.injEq]
              refine ⟨by simp, by simp, ?_⟩
              show st.seq + 1 + ls.length = st.seq + (ls.length + 1)
              omega

theorem sessionScan_eq (opts : ParseOpts) (lines : List SessionLine) :
    sessionScan opts lines =
      { userMsgs := userEntriesFrom opts 0 lines,
        groups := specGroups (contribsFrom opts 0 lines),
        seq := lines.length } := by
  rw [sessionScan, foldl_stepLine_eq]
  simp [insertContribs_nil_eq]

theorem contribsFrom_blocks_ne_nil (opts : ParseOpts) (lines : List SessionLine) :
    ∀ (n : Nat) (c : contrib), c ∈ contribsFrom opts n lines → c.blocks ≠ [] := by
  induction lines with
  | nil =>
      intro n c hc
      simp [contribsFrom] at hc
  | cons l ls ih =>
      intro n c hc
      cases l with
      | malformed =>
          exact ih (n + 1) c (by simpa [contribsFrom] using hc)
      | row row =>
          by_cases ha : row.kind = "assistant"
          · cases hmsg : row.Message with
            | absent =>
                refine ih (n + 1) c ?_
                simpa [contribsFrom, ha, hmsg] using hc
            | malformed =>
                refine ih (n + 1) c ?_
                simpa [contribsFrom, ha, hmsg] using hc
            | ok api =>
                by_cases hb : (extractAssistantBlocks api.Content opts).isEmpty
                · refine ih (n + 1) c ?_
                  simpa [contribsFrom, ha, hmsg, hb] using hc
                · have hb' : (extractAssistantBlocks api.Content opts).isEmpty = false := by
                    simpa using hb
                  rw [contribsFrom] at hc
                  simp only [ha, hmsg, hb', if_true, reduceIte] at hc
                  rcases List.mem_cons.mp hc with hc₁ | hc₁
                  · subst hc₁
                    exact List.isEmpty_eq_false.mp hb'
                  · exact ih (n + 1) c hc₁
          · refine ih (n + 1) c ?_
            simpa [contribsFrom, ha] using hc

theorem filterMap_length_all_some {α β : Type} (f : α → Option β) :
    ∀ (l : List α), (∀ a ∈ l, (f a).isSome) → (l.filterMap f).length = l.length := by
  intro l
  induction l with
  | nil => intro _; rfl
  | cons a l ih =>
      intro h
      cases hfa : f a with
      | none =>
          have := h a (List.mem_cons_self a l)
          rw [hfa] at this
          cases this
      | some b =>
          simp only [List.filterMap_cons, hfa, List.length_cons]
          rw [ih (fun x hx => h x (List.mem_cons_of_mem _ hx))]

theorem filterMap_specGroups (cs : List contrib)
    (hne : ∀ c ∈ cs, c.blocks ≠ []) :
    (specGroups cs).filterMap (fun g =>
        if (g.2.blocks).isEmpty then none
        else some (seqMsg.mk { Role := "assistant", Blocks := g.2.blocks,
                               Timestamp := g.2.ts } g.2.firstSeq)) =
      (dedupKeepFirst (cs.map (·.id))).filterMap (specGroupMsg cs) := by
  rw [specGroups, List.filterMap_map]
  refine List.filterMap_congr ?_
  intro a ha
  have hmem : a ∈ cs.map (·.id) := mem_dedupKeepFirst.mp ha
  obtain ⟨x, l, hxl⟩ := filter_id_ne_nil cs a hmem
  have hxmem : x ∈ cs.filter (fun e => decide (e.id = a)) := by
    rw [hxl]; exact List.mem_cons_self _ _
  have hxcs : x ∈ cs := (List.mem_filter.mp hxmem).1
  have hxb : x.blocks ≠ [] := hne x hxcs
  have hflat :
      ((List.map (fun c => c.blocks) (x :: l)).flatten).isEmpty = false := by
    rw [List.isEmpty_eq_false]
    intro hcontra
    simp only [List.map_cons, List.flatten_cons, List.append_eq_nil] at hcontra
    exact hxb hcontra.1
  simp only [Function.comp, hxl, grpOf, specGroupMsg, hflat, Bool.false_eq_true,
    if_false]

theorem parseSessionLines_eq_reconstructSpec (lines : List SessionLine)
    (opts : ParseOpts) :
    parseSessionLines lines opts = reconstructSpec lines opts := by
  rw [parseSessionLines, reconstructSpec, sessionScan_eq]
  rw [filterMap_specGroups _ (fun c hc =>
    contribsFrom_blocks_ne_nil opts lines 0 c hc)]

theorem historyScan_eq (lines : List HistoryLine) :
    ∀ acc : List SessionSummary,
      historyScan lines acc = acc ++ newOnes lines (acc.map (·.ID)) := by
  induction lines with
  | nil => intro acc; simp [historyScan, newOnes]
  | cons l ls ih =>
      intro acc
      cases l with
      | malformed => simp [historyScan, newOnes, ih]
      | entry e =>
          by_cases he : e.SessionID = ""
          · simp [historyScan, newOnes, he, ih]
          · by_cases hseen : e.SessionID ∈ acc.map (·.ID)
            · have hany : acc.any (fun s => s.ID == e.SessionID) = true := by
                rw [List.any_eq_true]
                obtain ⟨s, hs, hsid⟩ := List.mem_map.mp hseen
                exact ⟨s, hs, by simp [hsid]⟩
              simp [historyScan, newOnes, he, hseen, hany, ih]
            · have hany : acc.any (fun s => s.ID == e.SessionID) = false := by
                rw [List.any_eq_false]
                intro s hs
                simp only [beq_iff_eq]
                exact fun h => hseen (List.mem_map.mpr ⟨s, hs, h⟩)
              rw [historyScan]
              simp only [he, hany, if_false, Bool.false_eq_true, reduceIte,
                ih (acc ++ [mkSummary e])]
              rw [newOnes]
              simp [he, hseen, mkSummary]

theorem firstEntryWith_cons_malformed (ls : List HistoryLine) (id : String) :
    firstEntryWith (.malformed :: ls) id = firstEntryWith ls id := by
  simp [firstEntryWith, List.findSome?_cons]

theorem firstEntryWith_cons_entry_ne (e : historyEntry) (ls : List HistoryLine)
    (id : String) (h : e.SessionID ≠ id) :
    firstEntryWith (.entry e :: ls) id = firstEntryWith ls id := by
  simp [firstEntryWith, List.findSome?_cons, h]

theorem firstEntryWith_cons_entry_eq (e : historyEntry) (ls : List HistoryLine)
    (id : String) (h : e.SessionID = id) :
    firstEntryWith (.entry e :: ls) id = some e := by
  simp [firstEntryWith, List.findSome?_cons, h]

theorem mem_newOnes (lines : List HistoryLine) :
    ∀ (seen : List String) (s : SessionSummary),
      s ∈ newOnes lines seen ↔
        s.ID ∉ seen ∧ s.ID ≠ "" ∧
          ∃ e, firstEntryWith lines s.ID = some e ∧ s = mkSummary e := by
  induction lines with
  | nil =>
      intro seen s
      simp [newOnes, firstEntryWith]
  | cons l ls ih =>
      intro seen s
      cases l with
      | malformed =>
          rw [newOnes, ih, firstEntryWith_cons_malformed]
      | entry e =>
          by_cases he : e.SessionID = ""
          · rw [newOnes, if_pos he, ih]
            constructor
            · rintro ⟨h1, h2, e', he', hs⟩
              refine ⟨h1, h2, e', ?_, hs⟩
              rwa [firstEntryWith_cons_entry_ne e ls s.ID (by rw [he]; exact fun h => h2 h.symm)]
            · rintro ⟨h1, h2, e', he', hs⟩
              refine ⟨h1, h2, e', ?_, hs⟩
              rwa [firstEntryWith_cons_entry_ne e ls s.ID (by rw [he]; exact fun h => h2 h.symm)] at he'
          · by_cases hseen : e.SessionID ∈ seen
            · rw [newOnes, if_neg he, if_pos hseen, ih]
              constructor
              · rintro ⟨h1, h2, e', he', hs⟩
                have hne : e.SessionID ≠ s.ID := fun h => h1 (h ▸ hseen)
                exact ⟨h1, h2, e', by rwa [firstEntryWith_cons_entry_ne e ls s.ID hne], hs⟩
              · rintro ⟨h1, h2, e', he', hs⟩
                have hne : e.SessionID ≠ s.ID := fun h => h1 (h ▸ hseen)
                exact ⟨h1, h2, e', by rwa [firstEntryWith_cons_entry_ne e ls s.ID hne] at he', hs⟩
            · rw [newOnes, if_neg he, if_neg hseen, List.mem_cons, ih]
              constructor
              · rintro (hs | ⟨h1, h2, e', he', hs⟩)
                · subst hs
                  refine ⟨hseen, he, e, ?_, rfl⟩
                  exact firstEntryWith_cons_entry_eq e ls _ rfl
                · have h1' : s.ID ∉ seen :=
                    fun hc => h1 (List.mem_append.mpr (Or.inl hc))
                  have hne : e.SessionID ≠ s.ID := by
                    intro hc
                    exact h1 (List.mem_append.mpr (Or.inr (by simp [hc])))
                  exact ⟨h1', h2, e',
                    by rwa [firstEntryWith_cons_entry_ne e ls s.ID hne], hs⟩
              · rintro ⟨h1, h2, e', he', hs⟩
                by_cases hid : e.SessionID = s.ID
                · left
                  rw [firstEntryWith_cons_entry_eq e ls _ hid] at he'
                  cases he'
                  rw [hs, mkSummary]
                · right
                  rw [firstEntryWith_cons_entry_ne e ls _ hid] at he'
                  refine ⟨?_, h2, e', he', hs⟩
                  intro hc
                  rcases List.mem_append.mp hc with hc₁ | hc₁
                  · exact h1 hc₁
                  · simp only [List.mem_singleton] at hc₁
                    exact hid hc₁.symm

theorem mem_parseHistoryLines (lines : List HistoryLine) (s : SessionSummary) :
    s ∈ parseHistoryLines lines ↔
      s.ID ≠ "" ∧ ∃ e, firstEntryWith lines s.ID = some e ∧ s = mkSummary e := by
  rw [parseHistoryLines,
    (List.perm_insertionSort histGE (historyScan lines [])).mem_iff,
    historyScan_eq lines []]
  simp only [List.map_nil, List.nil_append]
  rw [mem_newOnes]
  simp

theorem assistantLoop_text_thinking_ne_empty (opts : ParseOpts) :
    ∀ (bs : List contentBlockRaw) (b : ContentBlock),
      b ∈ assistantLoop opts bs →
      (b.kind = "text" ∨ b.kind = "thinking") → b.Text ≠ "" := by
  intro bs
  induction bs with
  | nil =>
      intro b hb
      simp [assistantLoop] at hb
  | cons b₀ bs ih =>
      intro b hb hk
      rw [assistantLoop] at hb
      split at hb
      · split at hb
        · rename_i hne
          rcases List.mem_cons.mp hb with hb | hb
          · subst hb; exact hne
          · exact ih b hb hk
        · exact ih b hb hk
      · split at hb
        · split at hb
          · exact ih b hb hk
          · split at hb
            · simp only [ne_eq] at hb
              split at hb
              · rename_i hne
                rcases List.mem_cons.mp hb with hb | hb
                · subst hb; exact hne
                · exact ih b hb hk
              · exact ih b hb hk
            · simp only [ne_eq] at hb
              split at hb
              · rename_i hne
                rcases List.mem_cons.mp hb with hb | hb
                · subst hb; exact hne
                · exact ih b hb hk
              · rename_i hth hnn
                exact absurd (not_not.mp hnn) hth
        · split at hb
          · split at hb
            · exact ih b hb hk
            · rcases List.mem_cons.mp hb with hb | hb
              · subst hb
                rcases hk with hk | hk <;> simp at hk
              · exact ih b hb hk
          · exact ih b hb hk


theorem extractAssistantBlocks_text_thinking_ne_empty (raw : JsonContent)
    (opts : ParseOpts) (b : ContentBlock)
    (hb : b ∈ extractAssistantBlocks raw opts)
    (hk : b.kind = "text" ∨ b.kind = "thinking") : b.Text ≠ "" := by
  cases raw with
  | items blocks => exact assistantLoop_text_thinking_ne_empty opts blocks b hb hk
  | absent => simp [extractAssistantBlocks] at hb
  | str s => simp [extractAssistantBlocks] at hb
  | other r => simp [extractAssistantBlocks] at hb

theorem contribsFrom_blocks_text_thinking_ne_empty (opts : ParseOpts)
    (lines : List SessionLine) :
    ∀ (n : Nat) (c : contrib), c ∈ contribsFrom opts n lines →
      ∀ b ∈ c.blocks, (b.kind = "text" ∨ b.kind = "thinking") → b.Text ≠ "" := by
  induction lines with
  | nil =>
      intro n c hc
      simp [contribsFrom] at hc
  | cons l ls ih =>
      intro n c hc
      cases l with
      | malformed =>
          exact ih (n + 1) c (by simpa [contribsFrom] using hc)
      | row row =>
          by_cases ha : row.kind = "assistant"
          · cases hmsg : row.Message with
            | absent =>
                exact ih (n + 1) c (by simpa [contribsFrom, ha, hmsg] using hc)
            | malformed =>
                exact ih (n + 1) c (by simpa [contribsFrom, ha, hmsg] using hc)
            | ok api =>
                by_cases hb : (extractAssistantBlocks api.Content opts).isEmpty
                · exact ih (n + 1) c (by simpa [contribsFrom, ha, hmsg, hb] using hc)
                · have hb' : (extractAssistantBlocks api.Content opts).isEmpty = false := by
                    simpa using hb
                  rw [contribsFrom] at hc
                  simp only [ha, hmsg, hb', reduceIte] at hc
                  rcases List.mem_cons.mp hc with hc₁ | hc₁
                  · subst hc₁
                    intro b hbmem hk
                    exact extractAssistantBlocks_text_thinking_ne_empty
                      api.Content opts b hbmem hk
                  · exact ih (n + 1) c hc₁
          · exact ih (n + 1) c (by simpa [contribsFrom, ha] using hc)

theorem parseUserRow_role (row : sessionRow) (opts : ParseOpts) (m : Message)
    (h : parseUserRow row opts = some m) : m.Role = "user" := by
  by_cases hm : row.IsMeta
  · simp [parseUserRow, hm] at h
  · cases hmsg : row.Message with
    | absent => simp [parseUserRow, hm, hmsg] at h
    | malformed => simp [parseUserRow, hm, hmsg] at h
    | ok api =>
        cases hc : api.Content with
        | absent => simp [parseUserRow, hm, hmsg, hc] at h
        | other r => simp [parseUserRow, hm, hmsg, hc] at h
        | str s =>
            by_cases hmark : isSyntheticMarker s
            · simp [parseUserRow, hm, hmsg, hc, hmark] at h
            · simp only [parseUserRow, hm, hmsg, hc, hmark, Bool.false_eq_true,
                reduceIte, Option.some.injEq] at h
              rw [← h]
        | items blocks =>
            by_cases hb : (userBlocks opts blocks).isEmpty
            · simp [parseUserRow, hm, hmsg, hc, hb] at h
            · have hb' : (userBlocks opts blocks).isEmpty = false := by
                simpa using hb
              simp only [parseUserRow, hm, hmsg, hc, hb', Bool.false_eq_true,
                reduceIte, Option.some.injEq] at h
              rw [← h]

theorem userEntriesFrom_role (opts : ParseOpts) (lines : List SessionLine) :
    ∀ (n : Nat) (u : userEntry), u ∈ userEntriesFrom opts n lines →
      u.msg.Role = "user" := by
  induction lines with
  | nil =>
      intro n u hu
      simp [userEntriesFrom] at hu
  | cons l ls ih =>
      intro n u hu
      cases l with
      | malformed =>
          exact ih (n + 1) u (by simpa [userEntriesFrom] using hu)
      | row row =>
          by_cases hcond : row.kind = "user" ∧ row.IsMeta = false
          · cases hpu : parseUserRow row opts with
            | none =>
                exact ih (n + 1) u (by simpa [userEntriesFrom, hcond, hpu] using hu)
            | some m =>
                rw [userEntriesFrom] at hu
                simp only [hcond, hpu, reduceIte, if_true] at hu
                rcases List.mem_cons.mp hu with hu₁ | hu₁
                · subst hu₁
                  exact parseUserRow_role row opts m hpu
                · exact ih (n + 1) u hu₁
          · exact ih (n + 1) u (by simpa [userEntriesFrom, hcond] using hu)

/-! ## Claim theorems -/

/-- C1 counterexample: the claim "no Message returned by ParseSession contains
a `text` or `thinking` block whose text is empty; in particular a user line
whose bare-string content is empty never materializes an empty text block" is
false at a concrete input: a session log with one non-meta user line whose
bare-string content is `""` yields a Message containing a `text` block with
empty text, because the bare-string branch of `parseUserRow`
(parser.go:252-257) has no emptiness check. -/
theorem c1_counterexample :
    ∃ m ∈ parseSessionLines
        [SessionLine.row
          { kind := "user", Timestamp := "T1",
            Message := MsgPayload.ok
              { ID := "u1", Role := "user", Content := .str "" } }]
        { IncludeTools := false, IncludeThinking := false },
      ∃ b ∈ m.Blocks, (b.kind = "text" ∨ b.kind = "thinking") ∧ b.Text = "" := by
  decide

/-- C1 (amended): in every Message returned by the session reconstruction
whose role is `assistant`, no `text` or `thinking` block has empty text
(the extraction in `extractAssistantBlocks` drops empty strings at the
source); user messages, by contrast, may materialize empty text blocks. -/
theorem c1_assistant_no_empty_text_or_thinking (lines : List SessionLine)
    (opts : ParseOpts) (m : Message) (hm : m ∈ parseSessionLines lines opts)
    (hrole : m.Role = "assistant") :
    ∀ b ∈ m.Blocks, (b.kind = "text" ∨ b.kind = "thinking") → b.Text ≠ "" := by
  intro b hb hk
  rw [parseSessionLines_eq_reconstructSpec, reconstructSpec] at hm
  obtain ⟨sm, hsm, hsmm⟩ := List.mem_map.mp hm
  rw [(List.perm_insertionSort seqLE _).mem_iff] at hsm
  rcases List.mem_append.mp hsm with hu | hg
  · obtain ⟨u, hu', hue⟩ := List.mem_map.mp hu
    have hur : m.Role = "user" := by
      rw [← hsmm, ← hue]
      exact userEntriesFrom_role opts lines 0 u hu'
    rw [hrole] at hur
    simp at hur
  · obtain ⟨id, hid, hidm⟩ := List.mem_filterMap.mp hg
    rcases hfil : (contribsFrom opts 0 lines).filter (fun c => decide (c.id = id))
      with _ | ⟨x, l⟩
    · rw [specGroupMsg, hfil] at hidm
      cases hidm
    · rw [specGroupMsg, hfil] at hidm
      injection hidm with h
      rw [← hsmm, ← h] at hb
      obtain ⟨bl, hbl, hbbl⟩ := List.mem_flatten.mp hb
      obtain ⟨c, hc, hcbl⟩ := List.mem_map.mp hbl
      have hccs : c ∈ contribsFrom opts 0 lines := by
        have hcf : c ∈ (contribsFrom opts 0 lines).filter
            (fun c => decide (c.id = id)) := by
          rw [hfil]; exact hc
        exact (List.mem_filter.mp hcf).1
      exact contribsFrom_blocks_text_thinking_ne_empty opts lines 0 c hccs b
        (hcbl ▸ hbbl) hk

/-- C1 witness: the amended theorem applied to a concrete session with one
assistant text block `"hi"`. -/
theorem c1_assistant_no_empty_witness :
    ({ kind := "text", Text := "hi" } : ContentBlock).Text ≠ "" :=
  c1_assistant_no_empty_text_or_thinking
    [SessionLine.row
      { kind := "assistant", Timestamp := "T1",
        Message := MsgPayload.ok
          { ID := "a1",
            Content := .items [{ kind := "text", Text := "hi" }] } }]
    { IncludeTools := false, IncludeThinking := false }
    { Role := "assistant", Blocks := [{ kind := "text", Text := "hi" }],
      Timestamp := "T1" }
    (by decide) rfl
    { kind := "text", Text := "hi" } (by decide) (Or.inl rfl)

/-- C2 counterexample: the claim that array-shaped tool-result content joins
the text of exactly those items whose kind is `text` is false at a concrete
input: an array with a single non-text item carrying non-empty text — the
code joins its text anyway (the item kind is never consulted,
parser.go:347-354), while the claimed rule yields the empty string. -/
theorem c2_counterexample :
    extractToolResultContent (.arr [{ kind := "image", Text := "x" }]) ≠
      specExtractToolResultContent (.arr [{ kind := "image", Text := "x" }]) := by
  decide

/-- C2 (amended): for every raw tool_result content value, a plain string is
returned verbatim, an array of typed items is joined from the text fields of
every item with a non-empty text field — regardless of the item's kind —
with newline separators, any other present shape is returned as its raw
textual form, and absent content yields the empty string. -/
theorem c2_extract_tool_result_content (raw : ToolResultRaw) :
    extractToolResultContent raw = amendedExtractToolResultContent raw := by
  cases raw with
  | absent => rfl
  | str s => rfl
  | other r => rfl
  | arr items =>
      simp only [extractToolResultContent, amendedExtractToolResultContent]
      rw [List.filter_map]
      rfl

/-- C5: every assistant content item of kind `thinking` yields a block only
when `IncludeThinking` is enabled, with text taken from the `thinking` field
or from the `text` field when `thinking` is empty, and the block is
materialized only when the resolved text is non-empty — anywhere in the
content list, the rest of the extraction being unaffected. -/
theorem c5_thinking_fallback (opts : ParseOpts) (b : contentBlockRaw)
    (bs : List contentBlockRaw) (hk : b.kind = "thinking") :
    assistantLoop opts (b :: bs) =
      (if opts.IncludeThinking ∧
          (if b.Thinking = "" then b.Text else b.Thinking) ≠ ""
        then [{ kind := "thinking",
                Text := if b.Thinking = "" then b.Text else b.Thinking }]
        else []) ++ assistantLoop opts bs := by
  rw [assistantLoop]
  by_cases hinc : opts.IncludeThinking
  · by_cases hne : (if b.Thinking = "" then b.Text else b.Thinking) = ""
    · simp [hk, hinc, hne]
    · simp [hk, hinc, hne]
  · have hinc' : opts.IncludeThinking = false := by simpa using hinc
    simp [hk, hinc']

/-- C5 witness: the spec's example — a thinking item with empty `thinking`
field and `text` `"fallback"`, with `IncludeThinking` enabled, yields one
thinking block with text `"fallback"`. -/
theorem c5_thinking_fallback_witness :
    ({ kind := "thinking", Text := "fallback", Thinking := "" } :
        contentBlockRaw).kind = "thinking" ∧
    assistantLoop { IncludeTools := false, IncludeThinking := true }
        [{ kind := "thinking", Text := "fallback", Thinking := "" }] =
      (if ({ IncludeTools := false, IncludeThinking := true } :
              ParseOpts).IncludeThinking ∧
          (if ("" : String) = "" then "fallback" else "") ≠ ""
        then [{ kind := "thinking",
                Text := if ("" : String) = "" then "fallback" else "" }]
        else []) ++
        assistantLoop { IncludeTools := false, IncludeThinking := true } [] :=
  ⟨rfl, c5_thinking_fallback { IncludeTools := false, IncludeThinking := true }
    { kind := "thinking", Text := "fallback", Thinking := "" } [] rfl⟩

/-- C6: a non-meta user line whose message content is a bare string is
discarded entirely when the string contains one of the marker substrings
`<command-name>`, `<local-command`, `<system-reminder>`, and otherwise
yields one Message with a single text block holding that string. -/
theorem c6_bare_string_marker_filter (row : sessionRow) (opts : ParseOpts)
    (api : apiMessage) (s : String) (hm : row.IsMeta = false)
    (hmsg : row.Message = .ok api) (hc : api.Content = .str s) :
    parseUserRow row opts =
      if isSyntheticMarker s then none
      else some { Role := "user", Blocks := [{ kind := "text", Text := s }],
                  Timestamp := row.Timestamp } := by
  rw [parseUserRow]
  by_cases hmark : isSyntheticMarker s
  · simp [hm, hmsg, hc, hmark]
  · simp [hm, hmsg, hc, hmark]

/-- C6 witness: the spec's example — bare-string content
`"<system-reminder>x</system-reminder>"` is fully discarded. -/
theorem c6_bare_string_marker_witness :
    parseUserRow
        { kind := "user", Timestamp := "T1",
          Message := MsgPayload.ok
            { ID := "u1", Role := "user",
              Content := .str "<system-reminder>x</system-reminder>" } }
        { IncludeTools := false, IncludeThinking := false } = none := by
  rw [c6_bare_string_marker_filter
    { kind := "user", Timestamp := "T1",
      Message := MsgPayload.ok
        { ID := "u1", Role := "user",
          Content := .str "<system-reminder>x</system-reminder>" } }
    { IncludeTools := false, IncludeThinking := false }
    { ID := "u1", Role := "user",
      Content := .str "<system-reminder>x</system-reminder>" }
    "<system-reminder>x</system-reminder>" rfl rfl rfl]
  decide

/-- C3: assistant lines sharing one message identifier produce at most one
output assistant Message (the first-seen identifier list is duplicate-free),
whose blocks are the concatenation in file order of the blocks extracted
from those lines, placed at the sequence number of the identifier's first
contributing line; and the whole output is the merge of the user messages
and the assistant groups sorted ascending by sequence number, the sequence
number advancing by one for every input line including skipped ones —
i.e. the reconstruction equals `reconstructSpec`. -/
theorem c3_assistant_grouping_and_merge (lines : List SessionLine)
    (opts : ParseOpts) :
    (dedupKeepFirst ((contribsFrom opts 0 lines).map (·.id))).Nodup ∧
    parseSessionLines lines opts = reconstructSpec lines opts :=
  ⟨nodup_dedupKeepFirst _, parseSessionLines_eq_reconstructSpec lines opts⟩

/-- C4: the number of Messages returned by the session reconstruction equals
the number of non-meta user lines that yield a message (i.e. at least one
block) plus the number of distinct assistant identifiers with at least one
contributing line (i.e. whose lines accumulated at least one block). -/
theorem c4_output_message_count (lines : List SessionLine) (opts : ParseOpts) :
    (parseSessionLines lines opts).length =
      (userEntriesFrom opts 0 lines).length +
        (dedupKeepFirst ((contribsFrom opts 0 lines).map (·.id))).length := by
  rw [parseSessionLines_eq_reconstructSpec, reconstructSpec]
  rw [List.length_map, (List.perm_insertionSort seqLE _).length_eq,
    List.length_append, List.length_map]
  congr 1
  apply filterMap_length_all_some
  intro a ha
  obtain ⟨x, l, hxl⟩ :=
    filter_id_ne_nil (contribsFrom opts 0 lines) a (mem_dedupKeepFirst.mp ha)
  rw [specGroupMsg, hxl]
  rfl

/-- C7: the history scan retains, for each distinct non-empty session
identifier, exactly the summary of the first well-formed line carrying that
identifier, later lines being ignored; lines with an empty identifier never
appear in the result. -/
theorem c7_history_first_seen_wins (lines : List HistoryLine)
    (s : SessionSummary) :
    s ∈ parseHistoryLines lines ↔
      s.ID ≠ "" ∧ (firstEntryWith lines s.ID).map mkSummary = some s := by
  rw [mem_parseHistoryLines]
  constructor
  · rintro ⟨h1, e, he, hs⟩
    refine ⟨h1, ?_⟩
    rw [he, Option.map_some', ← hs]
  · rintro ⟨h1, h2⟩
    cases hfe : firstEntryWith lines s.ID with
    | none => rw [hfe] at h2; cases h2
    | some e =>
        rw [hfe, Option.map_some'] at h2
        injection h2 with h2'
        exact ⟨h1, e, rfl, h2'.symm⟩

/-- C8: the sequence of summaries returned by the history scan is sorted by
timestamp descending — any two adjacent results with distinct timestamps
have the earlier one's timestamp strictly greater. -/
theorem c8_history_sorted_descending (input : List HistoryLine)
    (res : List SessionSummary) (h : ParseHistory (.ok input) = .ok res) :
    List.Chain'
      (fun a b => a.Timestamp ≠ b.Timestamp → b.Timestamp < a.Timestamp)
      res := by
  have hres : res = parseHistoryLines input := by
    have h' := h
    rw [ParseHistory] at h'
    injection h' with h''
    exact h''.symm
  subst hres
  have hs : List.Sorted histGE (parseHistoryLines input) :=
    List.sorted_insertionSort histGE _
  refine List.Chain'.imp ?_ (List.Pairwise.chain' hs)
  intro a b hge hne
  have hge' : b.Timestamp ≤ a.Timestamp := hge
  exact lt_of_le_of_ne hge' (fun hc => hne hc.symm)

/-- C8 witness: the sortedness property at a concrete two-session history
log. -/
theorem c8_history_sorted_witness :
    List.Chain'
      (fun a b => a.Timestamp ≠ b.Timestamp → b.Timestamp < a.Timestamp)
      (parseHistoryLines
        [HistoryLine.entry { Display := "y", Timestamp := 500,
                             Project := "/p", SessionID := "b" },
         HistoryLine.entry { Display := "hello", Timestamp := 1000,
                             Project := "/p", SessionID := "a" }]) :=
  c8_history_sorted_descending
    [HistoryLine.entry { Display := "y", Timestamp := 500,
                         Project := "/p", SessionID := "b" },
     HistoryLine.entry { Display := "hello", Timestamp := 1000,
                         Project := "/p", SessionID := "a" }]
    _ rfl

/-- C10: an assistant line yielding zero blocks neither creates nor
positions a group — the accumulated group of each identifier is exactly
that of its contributing lines (the lines that yielded at least one block):
blocks concatenated in file order, timestamp and position taken from the
first contributing line, and no group exists for an identifier with no
contributing line. -/
theorem c10_group_positioned_at_first_contributing_line
    (lines : List SessionLine) (opts : ParseOpts) (id : String) :
    lookupGroup (sessionScan opts lines).groups id =
      specGroupOf (contribsFrom opts 0 lines) id := by
  rw [sessionScan_eq]
  show lookupGroup (specGroups (contribsFrom opts 0 lines)) id = _
  rw [specGroups, lookupGroup_map _ _ _ (nodup_dedupKeepFirst _)]
  by_cases h : id ∈ dedupKeepFirst ((contribsFrom opts 0 lines).map (·.id))
  · rw [if_pos h]
    obtain ⟨x, l, hxl⟩ :=
      filter_id_ne_nil (contribsFrom opts 0 lines) id (mem_dedupKeepFirst.mp h)
    rw [specGroupOf, hxl, grpOf]
  · rw [if_neg h]
    have hfil : (contribsFrom opts 0 lines).filter
        (fun e => decide (e.id = id)) = [] := by
      rw [List.filter_eq_nil_iff]
      intro x hx
      simp only [decide_eq_true_eq]
      exact fun hxc =>
        h (mem_dedupKeepFirst.mpr (List.mem_map.mpr ⟨x, hx, hxc⟩))
    rw [specGroupOf, hfil]

theorem historyScan_all_malformed (lines : List HistoryLine)
    (h : ∀ l ∈ lines, l = .malformed) :
    ∀ acc, historyScan lines acc = acc := by
  induction lines with
  | nil => intro acc; rfl
  | cons l ls ih =>
      intro acc
      have hl : l = .malformed := h l (List.mem_cons_self l ls)
      subst hl
      show historyScan ls acc = acc
      exact ih (fun x hx => h x (List.mem_cons_of_mem _ hx)) acc

theorem userEntriesFrom_all_malformed (opts : ParseOpts)
    (lines : List SessionLine) (h : ∀ l ∈ lines, l = .malformed) :
    ∀ n, userEntriesFrom opts n lines = [] := by
  induction lines with
  | nil => intro n; rfl
  | cons l ls ih =>
      intro n
      have hl : l = .malformed := h l (List.mem_cons_self l ls)
      subst hl
      show userEntriesFrom opts (n + 1) ls = []
      exact ih (fun x hx => h x (List.mem_cons_of_mem _ hx)) (n + 1)

theorem contribsFrom_all_malformed (opts : ParseOpts)
    (lines : List SessionLine) (h : ∀ l ∈ lines, l = .malformed) :
    ∀ n, contribsFrom opts n lines = [] := by
  induction lines with
  | nil => intro n; rfl
  | cons l ls ih =>
      intro n
      have hl : l = .malformed := h l (List.mem_cons_self l ls)
      subst hl
      show contribsFrom opts (n + 1) ls = []
      exact ih (fun x hx => h x (List.mem_cons_of_mem _ hx)) (n + 1)

theorem parseSessionLines_all_malformed (lines : List SessionLine)
    (opts : ParseOpts) (h : ∀ l ∈ lines, l = .malformed) :
    parseSessionLines lines opts = [] := by
  rw [parseSessionLines, sessionScan_eq,
    userEntriesFrom_all_malformed opts lines h 0,
    contribsFrom_all_malformed opts lines h 0]
  rfl

/-- C9: both parsers are atomic — an open failure and a read failure each
produce an error carrying no partial output, a delivered log always fully
succeeds, and an empty or entirely-malformed log yields an empty non-error
result. -/
theorem c9_error_atomicity :
    (ParseHistory .openError = .error .openFail) ∧
    (∀ pre : List HistoryLine, ParseHistory (.readError pre) = .error .scanFail) ∧
    (∀ lines : List HistoryLine,
        ParseHistory (.ok lines) = .ok (parseHistoryLines lines)) ∧
    (parseHistoryLines [] = []) ∧
    (∀ lines : List HistoryLine, (∀ l ∈ lines, l = .malformed) →
        parseHistoryLines lines = []) ∧
    (∀ opts : ParseOpts, ParseSession .openError opts = .error .openFail) ∧
    (∀ (opts : ParseOpts) (pre : List SessionLine),
        ParseSession (.readError pre) opts = .error .scanFail) ∧
    (∀ (opts : ParseOpts) (lines : List SessionLine),
        ParseSession (.ok lines) opts = .ok (parseSessionLines lines opts)) ∧
    (∀ opts : ParseOpts, parseSessionLines [] opts = []) ∧
    (∀ (opts : ParseOpts) (lines : List SessionLine),
        (∀ l ∈ lines, l = .malformed) → parseSessionLines lines opts = []) := by
  refine ⟨rfl, fun pre => rfl, fun lines => rfl, rfl, ?_, fun opts => rfl,
    fun opts pre => rfl, fun opts lines => rfl, fun opts => rfl, ?_⟩
  · intro lines h
    rw [parseHistoryLines, historyScan_all_malformed lines h []]
    rfl
  · intro opts lines h
    exact parseSessionLines_all_malformed lines opts h

/-- C9 witness: a one-line entirely-malformed history log and session log
each yield the empty non-error result. -/
theorem c9_error_atomicity_witness :
    parseHistoryLines [HistoryLine.malformed] = [] ∧
    parseSessionLines [SessionLine.malformed]
      { IncludeTools := false, IncludeThinking := false } = [] :=
  ⟨c9_error_atomicity.2.2.2.2.1 [HistoryLine.malformed]
      (fun _ hl => List.mem_singleton.mp hl),
   c9_error_atomicity.2.2.2.2.2.2.2.2.2
      { IncludeTools := false, IncludeThinking := false } [SessionLine.malformed]
      (fun _ hl => List.mem_singleton.mp hl)⟩
